import Mathlib

/-!
Verification of the browser-based bulk video processor.

The development shallowly embeds the four source components:

* the pure ffmpeg argument builder `buildArgs`;
* the batch job orchestrator `handleProcess` (job state machine,
  per-job failure isolation, progress handlers, virtual-filesystem
  cleanup), with the external ffmpeg engine modelled by a per-job
  behaviour oracle `JobBehavior`;
* the memoized engine-handle manager `getFFmpeg` as a state machine
  over acquire/settle events;
* the zip exporter `zipBlobsAsZipFile` and its caller `handleZip`,
  modelled by the list of observable browser actions they perform.

JavaScript numbers are modelled as rationals; `String(x)` on a number
is modelled by `ratStr`, mirroring how the Lean library prints a
rational (digits, an optional leading minus sign, an optional slash).
-/

namespace Bvp

/-- Output container formats offered by the options form (exactly two). -/
inductive Format
  | mp4
  | webm
  deriving DecidableEq, Repr, Inhabited

/-- Resolution cap choices of the options form. -/
inductive Resolution
  | source
  | p720
  | p1080
  deriving DecidableEq, Repr, Inhabited

/-- Video bitrate choices of the options form. -/
inductive Bitrate
  | auto
  | oneM
  | twoHalfM
  | fiveM
  deriving DecidableEq, Repr, Inhabited

/-- The literal string value each bitrate choice carries in the source
(`"auto" | "1M" | "2.5M" | "5M"`). -/
def Bitrate.value : Bitrate → String
  | .auto => "auto"
  | .oneM => "1M"
  | .twoHalfM => "2.5M"
  | .fiveM => "5M"

/-- The `Options` record of the source: container format, resolution cap,
bitrate target and the optional trim window in seconds. -/
structure Options where
  format : Format
  resolution : Resolution
  bitrate : Bitrate
  trimStartSec : Option ℚ
  trimEndSec : Option ℚ
  deriving DecidableEq, Repr, Inhabited

/-- Digit string of a natural number (the library's `Nat.repr`). -/
def natStr (n : ℕ) : String := Nat.repr n

/-- Model of JavaScript `String(x)` on an integer (the library's `Int.repr`). -/
def intStr : ℤ → String
  | Int.ofNat m => natStr m
  | Int.negSucc m => "-" ++ natStr (m + 1)

/-- Model of JavaScript `String(x)` for the rational model of a JS number:
numerator digits, with a slash and the denominator when it is not 1. -/
def ratStr (q : ℚ) : String :=
  if q.den = 1 then intStr q.num else intStr q.num ++ "/" ++ natStr q.den

/-- Seek segment of the built arguments: `-ss <start>` when a positive
trim start is set (source line: `if (typeof opts.trimStartSec === "number"
&& opts.trimStartSec > 0)`). -/
def ssArgs (opts : Options) : List String :=
  match opts.trimStartSec with
  | some s => if 0 < s then ["-ss", ratStr s] else []
  | none => []

/-- Duration segment: `-t <end - start>` when both trim fields are set and
the end exceeds the start (source line: `if (typeof opts.trimEndSec ===
"number" && typeof opts.trimStartSec === "number" && opts.trimEndSec >
opts.trimStartSec)`). -/
def tArgs (opts : Options) : List String :=
  match opts.trimEndSec, opts.trimStartSec with
  | some e, some s => if s < e then ["-t", ratStr (e - s)] else []
  | _, _ => []

/-- Video codec segment, selected by container. -/
def vArgs (opts : Options) : List String :=
  match opts.format with
  | .mp4 => ["-c:v", "libx264", "-pix_fmt", "yuv420p"]
  | .webm => ["-c:v", "libvpx-vp9"]

/-- Bitrate segment: `-b:v <bitrate>` unless the bitrate is `auto`. -/
def bArgs (opts : Options) : List String :=
  match opts.bitrate with
  | .auto => []
  | b => ["-b:v", b.value]

/-- Resolution segment: a scale filter for the 720p and 1080p caps. -/
def rArgs (opts : Options) : List String :=
  match opts.resolution with
  | .source => []
  | .p720 => ["-vf", "scale=\x27min(1280,iw)\x27:\x27-2\x27:force_original_aspect_ratio=decrease"]
  | .p1080 => ["-vf", "scale=\x27min(1920,iw)\x27:\x27-2\x27:force_original_aspect_ratio=decrease"]

/-- Audio codec segment, selected by container. -/
def aArgs (opts : Options) : List String :=
  match opts.format with
  | .mp4 => ["-c:a", "aac", "-b:a", "128k"]
  | .webm => ["-c:a", "libopus", "-b:a", "96k"]

/-- The argument builder `buildArgs(inputName, outputName, opts)` of the
source, assembled in the source's fixed order: overwrite flag, seek,
input declaration, duration, video codec, bitrate, scale filter, audio
codec, output name. -/
def buildArgs (inputName outputName : String) (opts : Options) : List String :=
  ["-y"] ++ ssArgs opts ++ ["-i", inputName] ++ tArgs opts
    ++ vArgs opts ++ bArgs opts ++ rArgs opts ++ aArgs opts ++ [outputName]

/-- The video codec value paired with `-c:v` for each container. -/
def videoCodec : Format → String
  | .mp4 => "libx264"
  | .webm => "libvpx-vp9"

/-- The audio codec value paired with `-c:a` for each container. -/
def audioCodec : Format → String
  | .mp4 => "aac"
  | .webm => "libopus"

/-- The value that follows the first occurrence of `flag` in an argument
list, if any. -/
def flagValue (args : List String) (flag : String) : Option String :=
  match args with
  | [] => none
  | a :: rest => if a = flag then rest.head? else flagValue rest flag

/-- Per-job state machine states of a `VideoJob`. -/
inductive Status
  | pending
  | processing
  | done
  | error
  deriving DecidableEq, Repr, Inhabited

/-- One conversion job, as in the source's `VideoJob` record. The source
bytes of `job.file` are not modelled: they flow only into the engine's
write step, whose outcome the engine behaviour oracle determines. -/
structure VideoJob where
  fileName : String
  outputName : String
  progress : ℤ
  status : Status
  error : Option String
  downloadUrl : Option ℕ
  deriving DecidableEq, Repr, Inhabited

/-- Outcome oracle for the engine's handling of one job: whether each of
the write / exec / read steps succeeds (carrying the thrown message when
it fails), which fractional progress events the engine delivers during
`exec`, and whether the two best-effort `deleteFile` calls fail. -/
structure JobBehavior where
  writeResult : Option String
  progressEvents : List ℚ
  execResult : Option String
  readResult : Except String (List ℕ)
  deleteInputFails : Bool
  deleteOutputFails : Bool
  deriving Repr, Inhabited

/-- Virtual-filesystem / engine operations the orchestrator attempts, in
order. -/
inductive FsOp
  | write (name : String)
  | exec
  | delete (name : String)
  deriving DecidableEq, Repr, Inhabited

/-- Model of `String(err?.message || err)`: when the thrown error carries
an empty message, JavaScript falls back to stringifying the error object
itself, which is never the empty string. -/
def errText (msg : String) : String := if msg = "" then "Error" else msg

/-- Model of `file.name.replace(/\.[^/.]+$/, "")`: drop a trailing dot-led
extension of at least one character containing no dot and no slash. -/
def stripExt (name : String) : String :=
  let rev := name.data.reverse
  let ext := rev.takeWhile fun c => c != '.' && c != '/'
  match rev.drop ext.length with
  | '.' :: rest => if ext.isEmpty then name else ⟨rest.reverse⟩
  | _ => name

/-- Model of `getOutputName`: strip the extension and append the chosen
container's extension. -/
def getOutputName (fileName : String) (fmt : Format) : String :=
  stripExt fileName ++ "." ++ (match fmt with | .mp4 => "mp4" | .webm => "webm")

/-- In-place update of the `i`-th element of a list (the source mutates
`updated[i]` directly). -/
def listModify {α : Type} : List α → ℕ → (α → α) → List α
  | [], _, _ => []
  | a :: as, 0, f => f a :: as
  | a :: as, n + 1, f => a :: listModify as n f

/-- JavaScript `Math.round`: round half toward positive infinity. -/
def jsRound (q : ℚ) : ℤ := (q + 1 / 2).floor

/-- The progress handler body: `Math.min(100, Math.round(progress * 100))`. -/
def progressUpdate (r : ℚ) : ℤ := min 100 (jsRound (r * 100))

/-- The progress write of a handler (`job.progress = ...`). -/
def progSet (p : ℤ) (v : VideoJob) : VideoJob := { v with progress := p }

/-- Marking a job as started (`job.status = "processing"; job.progress = 0`). -/
def procSet (v : VideoJob) : VideoJob := { v with status := .processing, progress := 0 }

/-- Marking a job as failed (`job.status = "error"; job.error = String(...)`). -/
def errSet (msg : String) (v : VideoJob) : VideoJob :=
  { v with status := .error, error := some (errText msg) }

/-- Marking a job as finished (`job.downloadUrl = url; job.outputName = ...;
job.status = "done"; job.progress = 100`). -/
def doneSet (url : ℕ) (outName : String) (v : VideoJob) : VideoJob :=
  { v with downloadUrl := some url, outputName := outName,
           status := .done, progress := 100 }

/-- Fire every attached progress handler for one engine progress event:
the handler attached for job `j` sets job `j`'s progress. Handlers
accumulate across jobs because the source registers a fresh
`on("progress")` listener per job and never removes the earlier ones. -/
def applyHandlers (attached : List ℕ) (r : ℚ) (jobs : List VideoJob) : List VideoJob :=
  attached.foldl (fun js j => listModify js j (progSet (progressUpdate r))) jobs

/-- Deliver a sequence of engine progress events. -/
def applyEvents (attached : List ℕ) (events : List ℚ) (jobs : List VideoJob) : List VideoJob :=
  events.foldl (fun js r => applyHandlers attached r js) jobs

/-- State threaded through the orchestrator's per-job loop. -/
structure RunState where
  jobs : List VideoJob
  attached : List ℕ
  trace : List FsOp
  nextUrl : ℕ
  deriving DecidableEq, Repr, Inhabited

/-- Name of job `j`'s source file in a job list. -/
def nameAt (jobs : List VideoJob) (j : ℕ) : String := ((jobs[j]?).getD default).fileName

/-- Status of job `j` in a job list. -/
def statusAt (jobs : List VideoJob) (j : ℕ) : Option Status := (jobs[j]?).map (·.status)

/-- Error message of job `j` in a job list. -/
def errAt (jobs : List VideoJob) (j : ℕ) : Option (Option String) := (jobs[j]?).map (·.error)

/-- Progress of job `j` in a job list. -/
def progAt (jobs : List VideoJob) (j : ℕ) : Option ℤ := (jobs[j]?).map (·.progress)

/-- Process one job, mirroring the body of the source's per-job loop:
mark Processing with progress 0, write the input into the virtual
filesystem, attach a progress handler, run the engine (during which
progress events fire on every handler attached so far), read the output,
record the output URL and mark Done with progress 100 — any failure of
write/exec/read is caught and marks the job Error with the stringified
message instead. The two best-effort deletes sit at the end of the
success path only; each is wrapped in its own try/catch, so their
failures change nothing. -/
def runJob (b : JobBehavior) (opts : Options) (i : ℕ) (s : RunState) : RunState :=
  let inputName := nameAt s.jobs i
  let outName := getOutputName inputName opts.format
  let s0 : RunState := { s with jobs := listModify s.jobs i procSet }
  match b.writeResult with
  | some msg =>
      { s0 with trace := s0.trace ++ [.write inputName],
                jobs := listModify s0.jobs i (errSet msg) }
  | none =>
      let s1 : RunState :=
        { s0 with trace := s0.trace ++ [.write inputName, .exec],
                  attached := s0.attached ++ [i] }
      let s2 : RunState := { s1 with jobs := applyEvents s1.attached b.progressEvents s1.jobs }
      match b.execResult with
      | some msg => { s2 with jobs := listModify s2.jobs i (errSet msg) }
      | none =>
          match b.readResult with
          | .error msg => { s2 with jobs := listModify s2.jobs i (errSet msg) }
          | .ok _ =>
              { s2 with
                jobs := listModify s2.jobs i (doneSet s2.nextUrl outName),
                nextUrl := s2.nextUrl + 1,
                trace := s2.trace ++ [.delete inputName, .delete outName] }

/-- Whether the engine behaviour lets the job complete (write, exec and
read all succeed). -/
def behaviorOkB (b : JobBehavior) : Bool :=
  b.writeResult.isNone && b.execResult.isNone &&
    (match b.readResult with | .ok _ => true | .error _ => false)

/-- The message of the first failing step, if any. -/
def jobFailMsg (b : JobBehavior) : Option String :=
  match b.writeResult with
  | some m => some m
  | none =>
      match b.execResult with
      | some m => some m
      | none => match b.readResult with | .error m => some m | .ok _ => none

/-- Terminal status a job reaches under behaviour `b`. -/
def jobFinalStatus (b : JobBehavior) : Status := if behaviorOkB b then .done else .error

/-- Error message a job records under behaviour `b`. -/
def jobFinalErr (b : JobBehavior) : Option String := (jobFailMsg b).map errText

/-- Engine operations one job attempt emits under behaviour `b`. -/
def jobOps (b : JobBehavior) (inputName outName : String) : List FsOp :=
  match b.writeResult with
  | some _ => [.write inputName]
  | none =>
      [.write inputName, .exec] ++
        match b.execResult with
        | some _ => []
        | none =>
            match b.readResult with
            | .error _ => []
            | .ok _ => [.delete inputName, .delete outName]

/-- The per-job loop over `count` jobs starting at index `i`. -/
def runLoop (beh : ℕ → JobBehavior) (opts : Options) : ℕ → ℕ → RunState → RunState
  | _, 0, s => s
  | i, count + 1, s => runLoop beh opts (i + 1) count (runJob (beh i) opts i s)

/-- Engine operations of a whole run, job by job in list order. -/
def expectedTrace (beh : ℕ → JobBehavior) (jobs : List VideoJob) (opts : Options) : List FsOp :=
  (List.range jobs.length).flatMap fun i =>
    jobOps (beh i) (nameAt jobs i) (getOutputName (nameAt jobs i) opts.format)

/-- Observable outcome of `handleProcess`: the rejection propagated to the
caller (if any), the final job list, the attached handlers and the engine
operation trace. -/
structure RunResult where
  rejected : Option String
  jobs : List VideoJob
  attached : List ℕ
  trace : List FsOp
  deriving DecidableEq, Repr, Inhabited

/-- The orchestrator `handleProcess`: bail out on an empty job list, then
acquire the engine handle — a failed acquisition rejects the whole run
with no job touched — and otherwise drive every job sequentially. -/
def handleProcess (engineInit : Except String Unit) (beh : ℕ → JobBehavior)
    (jobs : List VideoJob) (opts : Options) : RunResult :=
  if jobs.isEmpty then ⟨none, jobs, [], []⟩
  else
    match engineInit with
    | .error e => ⟨some e, jobs, [], []⟩
    | .ok _ =>
        let s := runLoop beh opts 0 jobs.length ⟨jobs, [], [], 0⟩
        ⟨none, s.jobs, s.attached, s.trace⟩

/-- Result a caller of `getFFmpeg` receives: the memoized handle
immediately, or the (single) loading promise. -/
inductive AcqRes
  | handle (h : ℕ)
  | promise (p : ℕ)
  deriving DecidableEq, Repr, Inhabited

/-- Module state of `src/lib/ffmpeg.ts`: the `ffmpegSingleton` and
`loadingPromise` module variables, whether the loading promise has
settled, how many initializations have started, and which progress
callbacks were ever registered on the engine. -/
structure FFState where
  ffmpegSingleton : Option ℕ
  loadingPromise : Option ℕ
  settled : Bool
  initCount : ℕ
  callbacks : List ℕ
  deriving DecidableEq, Repr, Inhabited

/-- The fresh module state. -/
def ffInit : FFState := ⟨none, none, false, 0, []⟩

/-- One call of `getFFmpeg(onProgress?)`: return the singleton if ready,
else the in-flight promise if any, else run `load()` — which registers
the caller's progress callback (if provided) and starts the
initialization numbered `initCount`, memoizing its promise in
`loadingPromise`. -/
def getFFmpeg (cb : Option ℕ) (s : FFState) : FFState × AcqRes :=
  match s.ffmpegSingleton with
  | some h => (s, .handle h)
  | none =>
      match s.loadingPromise with
      | some p => (s, .promise p)
      | none =>
          let p := s.initCount
          ({ s with loadingPromise := some p,
                    callbacks := s.callbacks ++ cb.toList,
                    initCount := s.initCount + 1 },
           .promise p)

/-- The in-flight `load()` finishes with the outcome assigned to its
initialization number: on success the singleton is set; on failure
nothing is reset, so the rejected promise stays memoized. -/
def settleLoad (outcomes : ℕ → Except String ℕ) (s : FFState) : FFState :=
  match s.loadingPromise with
  | none => s
  | some p =>
      if s.settled then s
      else
        match outcomes p with
        | .ok h => { s with ffmpegSingleton := some h, settled := true }
        | .error _ => { s with settled := true }

/-- Events of the engine-handle manager: a call to `getFFmpeg` carrying an
optional progress callback, or completion of the in-flight load. -/
inductive FFEvent
  | acquire (cb : Option ℕ)
  | settle
  deriving DecidableEq, Repr, Inhabited

/-- Run a sequence of events, collecting each acquire's result. -/
def runFF (outcomes : ℕ → Except String ℕ) : List FFEvent → FFState → FFState × List AcqRes
  | [], s => (s, [])
  | .acquire cb :: es, s =>
      let r := getFFmpeg cb s
      let rest := runFF outcomes es r.1
      (rest.1, r.2 :: rest.2)
  | .settle :: es, s => runFF outcomes es (settleLoad outcomes s)

/-- Number of acquire events in a trace. -/
def countAcquires : List FFEvent → ℕ
  | [] => 0
  | .acquire _ :: es => countAcquires es + 1
  | .settle :: es => countAcquires es

/-- The callback of the first acquire event, as a list. -/
def firstAcquireCb : List FFEvent → List ℕ
  | [] => []
  | .acquire cb :: _ => cb.toList
  | .settle :: es => firstAcquireCb es

/-- Reachability invariant of the module state: at most one initialization
has started; while nothing is in flight nothing has started; the only
promise ever created is number 0; and a memoized singleton can only come
from initialization 0 succeeding with that very handle. -/
def ffInv (outcomes : ℕ → Except String ℕ) (s : FFState) : Prop :=
  s.initCount ≤ 1 ∧
  (s.loadingPromise = none → s.initCount = 0 ∧ s.ffmpegSingleton = none) ∧
  (∀ p, s.loadingPromise = some p → p = 0 ∧ s.initCount = 1) ∧
  (∀ h, s.ffmpegSingleton = some h → outcomes 0 = Except.ok h ∧ s.loadingPromise = some 0)

/-- What a caller may observe: the single promise (number 0), or the
handle the single initialization succeeded with. -/
def ffResOK (outcomes : ℕ → Except String ℕ) : AcqRes → Prop
  | .promise p => p = 0
  | .handle h => outcomes 0 = Except.ok h

/-- Observable browser actions of the exporter. -/
inductive ExportAction
  | createArchive (entries : List (String × List ℕ))
  | download (zipName : String)
  deriving DecidableEq, Repr, Inhabited

/-- Model of `zipBlobsAsZipFile`: add every given blob to a fresh archive
under its name, generate the archive, and trigger a client-side download
of it under `zipName`. -/
def zipBlobsAsZipFile (files : List (String × List ℕ)) (zipName : String) : List ExportAction :=
  [.createArchive files, .download zipName]

/-- Model of `handleZip`: collect the Done jobs that carry an output URL;
if there are none, return without doing anything; otherwise fetch each
blob and hand the list to `zipBlobsAsZipFile`. `fetchBlob` models
resolving an object URL to its bytes. -/
def handleZip (fetchBlob : ℕ → List ℕ) (jobs : List VideoJob) : List ExportAction :=
  let ready := jobs.filter fun j => (j.status == Status.done) && j.downloadUrl.isSome
  if ready.length = 0 then []
  else
    zipBlobsAsZipFile
      (ready.map fun j => (j.outputName, fetchBlob (j.downloadUrl.getD 0)))
      "processed-videos.zip"

end Bvp

namespace Bvp

/-- Characters produced by `Nat.digitChar` below base 10 are digits. -/
theorem digitChar_isDigit : ∀ m, m < 10 → (Nat.digitChar m).isDigit = true := by
  decide

/-- Every character accumulated by `Nat.toDigitsCore` in base 10 is a digit. -/
theorem toDigitsCore_digits :
    ∀ (fuel n : ℕ) (ds : List Char), (∀ c ∈ ds, c.isDigit = true) →
      ∀ c ∈ Nat.toDigitsCore 10 fuel n ds, c.isDigit = true := by
  intro fuel
  induction fuel with
  | zero => intro n ds h; simpa [Nat.toDigitsCore] using h
  | succ f ih =>
    intro n ds h
    have hchar : ∀ c ∈ (Nat.digitChar (n % 10) :: ds), c.isDigit = true := by
      intro c hc
      rcases List.mem_cons.mp hc with hc | hc
      · subst hc; exact digitChar_isDigit _ (Nat.mod_lt _ (by norm_num))
      · exact h c hc
    simp only [Nat.toDigitsCore]
    split
    · exact hchar
    · exact ih _ _ hchar

/-- Every character of `natStr n` is a digit. -/
theorem natStr_digits (n : ℕ) : ∀ c ∈ (natStr n).data, c.isDigit = true := by
  have : (natStr n).data = Nat.toDigitsCore 10 (n + 1) n [] := rfl
  rw [this]
  exact toDigitsCore_digits _ _ _ (by intro c hc; cases hc)

/-- Every character of the string of a positive rational is a digit or a
slash. -/
theorem ratStr_pos_chars (q : ℚ) (hq : 0 < q) :
    ∀ c ∈ (ratStr q).data, c.isDigit = true ∨ c = '/' := by
  have hnum : 0 < q.num := Rat.num_pos.mpr hq
  obtain ⟨m, hm⟩ : ∃ m : ℕ, q.num = Int.ofNat m :=
    ⟨q.num.toNat, (Int.toNat_of_nonneg (le_of_lt hnum)).symm⟩
  unfold ratStr
  split
  · rw [hm]
    intro c hc
    exact Or.inl (natStr_digits m c hc)
  · rw [hm]
    intro c hc
    simp only [intStr, String.data_append] at hc
    rcases List.mem_append.mp hc with hc | hc
    · rcases List.mem_append.mp hc with hc | hc
      · exact Or.inl (natStr_digits m c hc)
      · rcases List.mem_singleton.mp hc with rfl
        exact Or.inr rfl
    · exact Or.inl (natStr_digits q.den c hc)

/-- The string of a positive rational never equals a string containing a
minus sign (in particular, never equals an option flag such as `-t`). -/
theorem ratStr_pos_ne (q : ℚ) (hq : 0 < q) (f : String) (hf : '-' ∈ f.data) :
    ratStr q ≠ f := by
  intro h
  have : '-' ∈ (ratStr q).data := by rw [h]; exact hf
  rcases ratStr_pos_chars q hq '-' this with hd | hs
  · simp [Char.isDigit] at hd
  · simp at hs

/-- The lemma `flagValue` skips over a prefix that does not contain the flag. -/
theorem flagValue_append_not_mem (xs ys : List String) (flag : String) (h : flag ∉ xs) :
    flagValue (xs ++ ys) flag = flagValue ys flag := by
  induction xs with
  | nil => rfl
  | cons a rest ih =>
    simp only [List.cons_append, flagValue, List.append_eq]
    have hne : a ≠ flag := fun hq => h (by rw [hq]; exact List.mem_cons_self _ _)
    rw [if_neg hne, ih fun hm => h (List.mem_cons_of_mem _ hm)]

/-- The lemma `flagValue` finds the value right after the flag. -/
theorem flagValue_cons_self (flag v : String) (rest : List String) :
    flagValue (flag :: v :: rest) flag = some v := by
  simp [flagValue]

/-- A string containing a minus sign that is not `-ss` never occurs in the
seek segment. -/
theorem not_mem_ssArgs (opts : Options) (flag : String) (hd : '-' ∈ flag.data)
    (hne : flag ≠ "-ss") : flag ∉ ssArgs opts := by
  cases hs : opts.trimStartSec with
  | none => simp [ssArgs, hs]
  | some s =>
    by_cases hpos : 0 < s
    · simp only [ssArgs, hs, if_pos hpos]
      intro hmem
      rcases List.mem_cons.mp hmem with h | h
      · exact hne h
      · rcases List.mem_singleton.mp h with rfl
        exact ratStr_pos_ne s hpos _ hd rfl
    · simp [ssArgs, hs, if_neg hpos]

/-- A string containing a minus sign that is not `-t` never occurs in the
duration segment. -/
theorem not_mem_tArgs (opts : Options) (flag : String) (hd : '-' ∈ flag.data)
    (hne : flag ≠ "-t") : flag ∉ tArgs opts := by
  cases he : opts.trimEndSec with
  | none => simp [tArgs, he]
  | some e =>
    cases hs : opts.trimStartSec with
    | none => simp [tArgs, he, hs]
    | some s =>
      by_cases hlt : s < e
      · simp only [tArgs, he, hs, if_pos hlt]
        intro hmem
        rcases List.mem_cons.mp hmem with h | h
        · exact hne h
        · rcases List.mem_singleton.mp h with rfl
          exact ratStr_pos_ne (e - s) (by linarith) _ hd rfl
      · simp [tArgs, he, hs, if_neg hlt]

/-- The duration flag occurs exactly when both trim fields are set and the
end exceeds the start. -/
theorem mem_tArgs_iff (opts : Options) :
    "-t" ∈ tArgs opts ↔
      ∃ s e, opts.trimStartSec = some s ∧ opts.trimEndSec = some e ∧ s < e := by
  cases he : opts.trimEndSec with
  | none => simp [tArgs, he]
  | some e =>
    cases hs : opts.trimStartSec with
    | none => simp [tArgs, he, hs]
    | some s =>
      by_cases hlt : s < e
      · simp only [tArgs, he, hs, if_pos hlt]
        constructor
        · intro _; exact ⟨s, e, rfl, rfl, hlt⟩
        · intro _; exact List.mem_cons_self _ _
      · simp only [tArgs, he, hs, if_neg hlt, List.not_mem_nil, false_iff]
        rintro ⟨s1, e1, h1, h2, h3⟩
        cases Option.some.inj h1
        cases Option.some.inj h2
        exact hlt h3

/-- Strings outside the video codec vocabulary never occur in the video
codec segment. -/
theorem not_mem_vArgs (opts : Options) (flag : String)
    (h : flag ∉ ["-c:v", "libx264", "-pix_fmt", "yuv420p", "libvpx-vp9"]) :
    flag ∉ vArgs opts := by
  unfold vArgs
  cases opts.format <;> simp_all

/-- Strings outside the bitrate vocabulary never occur in the bitrate
segment. -/
theorem not_mem_bArgs (opts : Options) (flag : String)
    (h : flag ∉ ["-b:v", "1M", "2.5M", "5M"]) : flag ∉ bArgs opts := by
  unfold bArgs
  cases opts.bitrate <;> simp_all [Bitrate.value]

/-- Strings outside the scale-filter vocabulary never occur in the
resolution segment. -/
theorem not_mem_rArgs (opts : Options) (flag : String)
    (h : flag ∉ ["-vf",
      "scale=\x27min(1280,iw)\x27:\x27-2\x27:force_original_aspect_ratio=decrease",
      "scale=\x27min(1920,iw)\x27:\x27-2\x27:force_original_aspect_ratio=decrease"]) :
    flag ∉ rArgs opts := by
  unfold rArgs
  cases opts.resolution <;> simp_all

/-- Strings outside the audio codec vocabulary never occur in the audio
codec segment. -/
theorem not_mem_aArgs (opts : Options) (flag : String)
    (h : flag ∉ ["-c:a", "aac", "-b:a", "128k", "libopus", "96k"]) :
    flag ∉ aArgs opts := by
  unfold aArgs
  cases opts.format <;> simp_all

/-- C6 (amended): the built arguments contain the duration-limit flag
`-t`, valued trim-end minus trim-start, exactly when both trim fields are
set and trim-end exceeds trim-start; in every other case (either field
unset, or trim-end at most trim-start) no duration-limit flag appears —
and `buildArgs` is a total function, so no error is raised either way. -/
theorem buildArgs_duration (inN outN : String) (opts : Options)
    (hin : inN ≠ "-t") (hout : outN ≠ "-t") :
    ("-t" ∈ buildArgs inN outN opts ↔
      ∃ s e, opts.trimStartSec = some s ∧ opts.trimEndSec = some e ∧ s < e) ∧
    (∀ s e, opts.trimStartSec = some s → opts.trimEndSec = some e → s < e →
      flagValue (buildArgs inN outN opts) "-t" = some (ratStr (e - s))) := by
  have hy : ("-t" : String) ≠ "-y" := by decide
  have hi : ("-t" : String) ≠ "-i" := by decide
  have hin2 : ("-t" : String) ≠ inN := fun h => hin h.symm
  have hout2 : ("-t" : String) ≠ outN := fun h => hout h.symm
  have hss : "-t" ∉ ssArgs opts := not_mem_ssArgs opts _ (by decide) (by decide)
  have hv : "-t" ∉ vArgs opts := not_mem_vArgs opts _ (by decide)
  have hb : "-t" ∉ bArgs opts := not_mem_bArgs opts _ (by decide)
  have hr : "-t" ∉ rArgs opts := not_mem_rArgs opts _ (by decide)
  have ha : "-t" ∉ aArgs opts := not_mem_aArgs opts _ (by decide)
  constructor
  · rw [← mem_tArgs_iff]
    simp only [buildArgs, List.mem_append, List.mem_cons, List.mem_singleton,
      List.not_mem_nil, or_false]
    tauto
  · intro s e hs he hlt
    have htA : tArgs opts = ["-t", ratStr (e - s)] := by
      simp [tArgs, hs, he, if_pos hlt]
    simp only [buildArgs, List.append_assoc]
    rw [flagValue_append_not_mem _ _ _ (by simp [hy]),
      flagValue_append_not_mem _ _ _ hss,
      flagValue_append_not_mem _ _ _ (by simp [hi, hin2]),
      htA]
    simp [flagValue]

/-- C6 counterexample for the claim as stated: with trim-start unset (its
documented default behaviour is "start at 0") and trim-end set to 5,
trim-end is set and exceeds trim-start, yet the built argument list
contains no duration-limit flag — the code additionally requires
trim-start to be set. -/
theorem buildArgs_duration_counterexample :
    (∃ e : ℚ,
      (Options.mk Format.mp4 Resolution.source Bitrate.auto none (some 5)).trimEndSec = some e ∧
      (Options.mk Format.mp4 Resolution.source Bitrate.auto none (some 5)).trimStartSec.getD 0 < e) ∧
    "-t" ∉ buildArgs "a.mov" "a.mp4"
      (Options.mk Format.mp4 Resolution.source Bitrate.auto none (some 5)) := by
  constructor
  · exact ⟨5, rfl, by norm_num⟩
  · decide

/-- Witness for the amended C6 theorem at trim window 2..8. -/
theorem buildArgs_duration_witness :
    ("in.mov" : String) ≠ "-t" ∧ ("out.mp4" : String) ≠ "-t" ∧
      flagValue
        (buildArgs "in.mov" "out.mp4"
          (Options.mk Format.mp4 Resolution.p720 Bitrate.auto (some 2) (some 8)))
        "-t" = some (ratStr (8 - 2)) :=
  ⟨by decide, by decide,
    (buildArgs_duration "in.mov" "out.mp4"
      (Options.mk Format.mp4 Resolution.p720 Bitrate.auto (some 2) (some 8))
      (by decide) (by decide)).2 2 8 rfl rfl (by norm_num)⟩

/-- C7: for every option combination the built arguments contain exactly
one video codec flag pair and exactly one audio codec flag pair, each
matching the chosen container, of which there are exactly two. -/
theorem buildArgs_codecs (inN outN : String) (opts : Options)
    (h1 : inN ≠ "-c:v") (h2 : inN ≠ "-c:a") (h3 : outN ≠ "-c:v") (h4 : outN ≠ "-c:a") :
    (buildArgs inN outN opts).count "-c:v" = 1 ∧
    flagValue (buildArgs inN outN opts) "-c:v" = some (videoCodec opts.format) ∧
    (buildArgs inN outN opts).count "-c:a" = 1 ∧
    flagValue (buildArgs inN outN opts) "-c:a" = some (audioCodec opts.format) ∧
    (opts.format = Format.mp4 ∨ opts.format = Format.webm) := by
  have nss_v : "-c:v" ∉ ssArgs opts := not_mem_ssArgs opts _ (by decide) (by decide)
  have nt_v : "-c:v" ∉ tArgs opts := not_mem_tArgs opts _ (by decide) (by decide)
  have nb_v : "-c:v" ∉ bArgs opts := not_mem_bArgs opts _ (by decide)
  have nr_v : "-c:v" ∉ rArgs opts := not_mem_rArgs opts _ (by decide)
  have na_v : "-c:v" ∉ aArgs opts := not_mem_aArgs opts _ (by decide)
  have nss_a : "-c:a" ∉ ssArgs opts := not_mem_ssArgs opts _ (by decide) (by decide)
  have nt_a : "-c:a" ∉ tArgs opts := not_mem_tArgs opts _ (by decide) (by decide)
  have nv_a : "-c:a" ∉ vArgs opts := not_mem_vArgs opts _ (by decide)
  have nb_a : "-c:a" ∉ bArgs opts := not_mem_bArgs opts _ (by decide)
  have nr_a : "-c:a" ∉ rArgs opts := not_mem_rArgs opts _ (by decide)
  have hv1 : (vArgs opts).count "-c:v" = 1 := by
    cases hf : opts.format <;> simp only [vArgs, hf] <;> decide
  have hva : (aArgs opts).count "-c:v" = 0 := List.count_eq_zero.mpr na_v
  have ha1 : (aArgs opts).count "-c:a" = 1 := by
    cases hf : opts.format <;> simp only [aArgs, hf] <;> decide
  have hin_v : (["-i", inN] : List String).count "-c:v" = 0 :=
    List.count_eq_zero.mpr (by simp [Ne.symm h1])
  have hin_a : (["-i", inN] : List String).count "-c:a" = 0 :=
    List.count_eq_zero.mpr (by simp [Ne.symm h2])
  have hout_v : ([outN] : List String).count "-c:v" = 0 :=
    List.count_eq_zero.mpr (by simp [Ne.symm h3])
  have hout_a : ([outN] : List String).count "-c:a" = 0 :=
    List.count_eq_zero.mpr (by simp [Ne.symm h4])
  refine ⟨?_, ?_, ?_, ?_, ?_⟩
  · simp only [buildArgs, List.count_append, hv1, hin_v, hout_v,
      List.count_eq_zero.mpr nss_v, List.count_eq_zero.mpr nt_v,
      List.count_eq_zero.mpr nb_v, List.count_eq_zero.mpr nr_v,
      List.count_eq_zero.mpr na_v,
      show (["-y"] : List String).count "-c:v" = 0 from by decide]
  · simp only [buildArgs, List.append_assoc]
    rw [flagValue_append_not_mem _ _ _ (by decide),
      flagValue_append_not_mem _ _ _ nss_v,
      flagValue_append_not_mem _ _ _ (by simp [Ne.symm h1]),
      flagValue_append_not_mem _ _ _ nt_v]
    cases hf : opts.format <;>
      simp [vArgs, hf, videoCodec, flagValue]
  · simp only [buildArgs, List.count_append, ha1, hin_a, hout_a,
      List.count_eq_zero.mpr nss_a, List.count_eq_zero.mpr nt_a,
      List.count_eq_zero.mpr nv_a, List.count_eq_zero.mpr nb_a,
      List.count_eq_zero.mpr nr_a,
      show (["-y"] : List String).count "-c:a" = 0 from by decide]
  · simp only [buildArgs, List.append_assoc]
    rw [flagValue_append_not_mem _ _ _ (by decide),
      flagValue_append_not_mem _ _ _ nss_a,
      flagValue_append_not_mem _ _ _ (by simp [Ne.symm h2]),
      flagValue_append_not_mem _ _ _ nt_a,
      flagValue_append_not_mem _ _ _ nv_a,
      flagValue_append_not_mem _ _ _ nb_a,
      flagValue_append_not_mem _ _ _ nr_a]
    cases hf : opts.format <;>
      simp [aArgs, hf, audioCodec, flagValue]
  · cases hf : opts.format
    · exact Or.inl rfl
    · exact Or.inr rfl

/-- Witness for the C7 theorem at a concrete option combination. -/
theorem buildArgs_codecs_witness :
    ("in.mov" : String) ≠ "-c:v" ∧ ("in.mov" : String) ≠ "-c:a" ∧
    ("out.webm" : String) ≠ "-c:v" ∧ ("out.webm" : String) ≠ "-c:a" ∧
      ((buildArgs "in.mov" "out.webm"
          (Options.mk Format.webm Resolution.p1080 Bitrate.fiveM (some 1) (some 3))).count
        "-c:v" = 1 ∧
       flagValue
          (buildArgs "in.mov" "out.webm"
            (Options.mk Format.webm Resolution.p1080 Bitrate.fiveM (some 1) (some 3)))
          "-c:v" = some (videoCodec Format.webm) ∧
       (buildArgs "in.mov" "out.webm"
          (Options.mk Format.webm Resolution.p1080 Bitrate.fiveM (some 1) (some 3))).count
        "-c:a" = 1 ∧
       flagValue
          (buildArgs "in.mov" "out.webm"
            (Options.mk Format.webm Resolution.p1080 Bitrate.fiveM (some 1) (some 3)))
          "-c:a" = some (audioCodec Format.webm) ∧
       ((Options.mk Format.webm Resolution.p1080 Bitrate.fiveM
          (some (1:ℚ)) (some (3:ℚ))).format = Format.mp4 ∨
        (Options.mk Format.webm Resolution.p1080 Bitrate.fiveM
          (some (1:ℚ)) (some (3:ℚ))).format = Format.webm)) :=
  ⟨by decide, by decide, by decide, by decide,
    buildArgs_codecs "in.mov" "out.webm"
      (Options.mk Format.webm Resolution.p1080 Bitrate.fiveM (some 1) (some 3))
      (by decide) (by decide) (by decide) (by decide)⟩

/-- The lemma `listModify` never changes the length. -/
theorem listModify_length {α : Type} (l : List α) (i : ℕ) (f : α → α) :
    (listModify l i f).length = l.length := by
  induction l generalizing i with
  | nil => rfl
  | cons a as ih =>
    cases i with
    | zero => rfl
    | succ n => simp [listModify, ih]

/-- The lemma `listModify` leaves other positions untouched. -/
theorem listModify_get_ne {α : Type} (l : List α) (i j : ℕ) (f : α → α) (h : j ≠ i) :
    (listModify l i f)[j]? = l[j]? := by
  induction l generalizing i j with
  | nil => rfl
  | cons a as ih =>
    cases i with
    | zero =>
      cases j with
      | zero => exact absurd rfl h
      | succ m => simp [listModify]
    | succ n =>
      cases j with
      | zero => simp [listModify]
      | succ m =>
        simp only [listModify, List.getElem?_cons_succ]
        exact ih n m fun hh => h (by rw [hh])

/-- The lemma `listModify` maps the targeted position. -/
theorem listModify_get_eq {α : Type} (l : List α) (i : ℕ) (f : α → α) :
    (listModify l i f)[i]? = (l[i]?).map f := by
  induction l generalizing i with
  | nil => rfl
  | cons a as ih =>
    cases i with
    | zero => simp [listModify]
    | succ n => simpa [listModify] using ih n

/-- A projection invariant under `f` passes through `listModify`. -/
theorem listModify_proj {β : Type} (g : VideoJob → β) (f : VideoJob → VideoJob)
    (hgf : ∀ v, g (f v) = g v) (js : List VideoJob) (x j : ℕ) :
    ((listModify js x f)[j]?).map g = (js[j]?).map g := by
  by_cases h : j = x
  · subst h
    rw [listModify_get_eq]
    cases js[j]? <;> simp [hgf]
  · rw [listModify_get_ne _ _ _ _ h]

/-- The field setters change no other field. -/
theorem fileName_progSet (p : ℤ) (v : VideoJob) : (progSet p v).fileName = v.fileName := rfl

/-- The lemma `procSet` keeps the file name. -/
theorem fileName_procSet (v : VideoJob) : (procSet v).fileName = v.fileName := rfl

/-- The lemma `errSet` keeps the file name. -/
theorem fileName_errSet (m : String) (v : VideoJob) : (errSet m v).fileName = v.fileName := rfl

/-- The lemma `doneSet` keeps the file name. -/
theorem fileName_doneSet (u : ℕ) (o : String) (v : VideoJob) :
    (doneSet u o v).fileName = v.fileName := rfl

/-- Unfolding the handler fold one handler at a time. -/
theorem applyHandlers_cons (x : ℕ) (rest : List ℕ) (r : ℚ) (js : List VideoJob) :
    applyHandlers (x :: rest) r js =
      applyHandlers rest r (listModify js x (progSet (progressUpdate r))) := rfl

/-- Firing handlers never changes the length of the job list. -/
theorem applyHandlers_length (a : List ℕ) (r : ℚ) (js : List VideoJob) :
    (applyHandlers a r js).length = js.length := by
  induction a generalizing js with
  | nil => rfl
  | cons x rest ih => rw [applyHandlers_cons, ih, listModify_length]

/-- A projection invariant under progress writes passes through the
handlers. -/
theorem applyHandlers_proj {β : Type} (g : VideoJob → β)
    (hg : ∀ v p, g (progSet p v) = g v)
    (a : List ℕ) (r : ℚ) (js : List VideoJob) (j : ℕ) :
    ((applyHandlers a r js)[j]?).map g = (js[j]?).map g := by
  induction a generalizing js with
  | nil => rfl
  | cons x rest ih =>
    rw [applyHandlers_cons, ih]
    exact listModify_proj g _ (fun v => hg v _) js x j

/-- Unfolding the event fold one event at a time. -/
theorem applyEvents_cons (a : List ℕ) (r : ℚ) (rs : List ℚ) (js : List VideoJob) :
    applyEvents a (r :: rs) js = applyEvents a rs (applyHandlers a r js) := rfl

/-- Delivering events never changes the length of the job list. -/
theorem applyEvents_length (a : List ℕ) (evs : List ℚ) (js : List VideoJob) :
    (applyEvents a evs js).length = js.length := by
  induction evs generalizing js with
  | nil => rfl
  | cons r rs ih => rw [applyEvents_cons, ih, applyHandlers_length]

/-- A projection invariant under progress writes passes through event
delivery. -/
theorem applyEvents_proj {β : Type} (g : VideoJob → β)
    (hg : ∀ v p, g (progSet p v) = g v)
    (a : List ℕ) (evs : List ℚ) (js : List VideoJob) (j : ℕ) :
    ((applyEvents a evs js)[j]?).map g = (js[j]?).map g := by
  induction evs generalizing js with
  | nil => rfl
  | cons r rs ih => rw [applyEvents_cons, ih, applyHandlers_proj g hg]

/-- Handlers for other jobs leave a job's progress alone. -/
theorem progAt_applyHandlers_not_mem (a : List ℕ) (r : ℚ) (js : List VideoJob)
    (j : ℕ) (hj : j ∉ a) : progAt (applyHandlers a r js) j = progAt js j := by
  induction a generalizing js with
  | nil => rfl
  | cons x rest ih =>
    rw [applyHandlers_cons, ih _ fun hm => hj (List.mem_cons_of_mem _ hm)]
    unfold progAt
    rw [listModify_get_ne _ _ _ _ fun hh => hj (by rw [hh]; exact List.mem_cons_self _ _)]

/-- A job with an attached handler has its progress set to the handler's
value after the handlers fire. -/
theorem progAt_applyHandlers_mem (a : List ℕ) (r : ℚ) (js : List VideoJob)
    (j : ℕ) (hj : j ∈ a) (hlen : j < js.length) :
    progAt (applyHandlers a r js) j = some (progressUpdate r) := by
  induction a generalizing js with
  | nil => cases hj
  | cons x rest ih =>
    rw [applyHandlers_cons]
    by_cases hm : j ∈ rest
    · exact ih _ hm (by rw [listModify_length]; exact hlen)
    · have hx : j = x := by
        rcases List.mem_cons.mp hj with h | h
        · exact h
        · exact absurd h hm
      subst hx
      rw [progAt_applyHandlers_not_mem _ _ _ _ hm]
      unfold progAt
      rw [listModify_get_eq, List.getElem?_eq_getElem hlen]
      rfl

/-- The lemma `nameAt` through the optional lookup. -/
theorem nameAt_eq (js : List VideoJob) (j : ℕ) :
    nameAt js j = ((js[j]?).map (fun v => v.fileName)).getD "" := by
  unfold nameAt
  cases js[j]? <;> rfl

/-- Status after modifying the targeted job with a status-setting map. -/
theorem statusAt_listModify_set (js : List VideoJob) (i : ℕ) (f : VideoJob → VideoJob)
    (st : Status) (hf : ∀ v, (f v).status = st) (hi : i < js.length) :
    statusAt (listModify js i f) i = some st := by
  unfold statusAt
  rw [listModify_get_eq, List.getElem?_eq_getElem hi]
  simp [hf]

/-- Error message after modifying the targeted job with a message-setting
map. -/
theorem errAt_listModify_set (js : List VideoJob) (i : ℕ) (f : VideoJob → VideoJob)
    (em : Option String) (hf : ∀ v, (f v).error = em) (hi : i < js.length) :
    errAt (listModify js i f) i = some em := by
  unfold errAt
  rw [listModify_get_eq, List.getElem?_eq_getElem hi]
  simp [hf]

/-- The lemma `runJob` never changes the length of the job list. -/
theorem runJob_length (b : JobBehavior) (opts : Options) (i : ℕ) (s : RunState) :
    (runJob b opts i s).jobs.length = s.jobs.length := by
  obtain ⟨wr, evs, er, rr, d1, d2⟩ := b
  cases wr <;> cases er <;> cases rr <;>
    simp [runJob, listModify_length, applyEvents_length]

/-- A projection invariant under progress writes is untouched by `runJob`
at every index other than the job being processed. -/
theorem runJob_proj_ne {β : Type} (g : VideoJob → β)
    (hg : ∀ v p, g (progSet p v) = g v)
    (b : JobBehavior) (opts : Options) (i : ℕ) (s : RunState) (j : ℕ) (h : j ≠ i) :
    (((runJob b opts i s).jobs)[j]?).map g = ((s.jobs)[j]?).map g := by
  obtain ⟨wr, evs, er, rr, d1, d2⟩ := b
  cases wr <;> cases er <;> cases rr <;>
    · simp only [runJob]
      rw [listModify_get_ne _ _ _ _ h]
      try rw [applyEvents_proj g hg]
      rw [listModify_get_ne _ _ _ _ h]

/-- The source file name of every job is untouched by `runJob`. -/
theorem runJob_fileName (b : JobBehavior) (opts : Options) (i : ℕ) (s : RunState) (j : ℕ) :
    (((runJob b opts i s).jobs)[j]?).map (fun v => v.fileName) =
      ((s.jobs)[j]?).map (fun v => v.fileName) := by
  obtain ⟨wr, evs, er, rr, d1, d2⟩ := b
  cases wr <;> cases er <;> cases rr <;>
    · simp only [runJob]
      first
        | rw [listModify_proj (fun v => v.fileName) _ (fun v => fileName_errSet _ v)]
        | rw [listModify_proj (fun v => v.fileName) _ (fun v => fileName_doneSet _ _ v)]
      try rw [applyEvents_proj (fun v => v.fileName) (fun v p => fileName_progSet p v)]
      rw [listModify_proj (fun v => v.fileName) _ (fun v => fileName_procSet v)]

/-- The lemma `runJob` leaves the name of every job unchanged. -/
theorem runJob_nameAt (b : JobBehavior) (opts : Options) (i : ℕ) (s : RunState) (j : ℕ) :
    nameAt (runJob b opts i s).jobs j = nameAt s.jobs j := by
  rw [nameAt_eq, nameAt_eq, runJob_fileName]

/-- Status of other jobs is untouched by `runJob`. -/
theorem runJob_statusAt_ne (b : JobBehavior) (opts : Options) (i : ℕ) (s : RunState)
    (j : ℕ) (h : j ≠ i) :
    statusAt (runJob b opts i s).jobs j = statusAt s.jobs j :=
  runJob_proj_ne (fun v => v.status) (fun _ _ => rfl) b opts i s j h

/-- Error message of other jobs is untouched by `runJob`. -/
theorem runJob_errAt_ne (b : JobBehavior) (opts : Options) (i : ℕ) (s : RunState)
    (j : ℕ) (h : j ≠ i) :
    errAt (runJob b opts i s).jobs j = errAt s.jobs j :=
  runJob_proj_ne (fun v => v.error) (fun _ _ => rfl) b opts i s j h

/-- The processed job reaches its behaviour's terminal status, and on a
failing behaviour records the stringified failure message. -/
theorem runJob_self_spec (b : JobBehavior) (opts : Options) (i : ℕ) (s : RunState)
    (hi : i < s.jobs.length) :
    statusAt (runJob b opts i s).jobs i = some (jobFinalStatus b) ∧
    (behaviorOkB b = false → errAt (runJob b opts i s).jobs i = some (jobFinalErr b)) := by
  have h1 : i < (listModify s.jobs i procSet).length := by
    rw [listModify_length]; exact hi
  obtain ⟨wr, evs, er, rr, d1, d2⟩ := b
  cases wr with
  | some m =>
      simp only [runJob]
      exact ⟨statusAt_listModify_set _ _ _ _ (fun v => rfl) h1,
        fun _ => errAt_listModify_set _ _ _ _ (fun v => rfl) h1⟩
  | none =>
      have h2 : i < (applyEvents (s.attached ++ [i]) evs
          (listModify s.jobs i procSet)).length := by
        rw [applyEvents_length]; exact h1
      cases er with
      | some m =>
          simp only [runJob]
          exact ⟨statusAt_listModify_set _ _ _ _ (fun v => rfl) h2,
            fun _ => errAt_listModify_set _ _ _ _ (fun v => rfl) h2⟩
      | none =>
          cases rr with
          | error m =>
              simp only [runJob]
              exact ⟨statusAt_listModify_set _ _ _ _ (fun v => rfl) h2,
                fun _ => errAt_listModify_set _ _ _ _ (fun v => rfl) h2⟩
          | ok bytes =>
              simp only [runJob]
              refine ⟨statusAt_listModify_set _ _ _ _ (fun v => rfl) h2, fun hfalse => ?_⟩
              exact absurd hfalse (by simp [behaviorOkB])

/-- The trace grows by exactly the operations of the processed job. -/
theorem runJob_trace (b : JobBehavior) (opts : Options) (i : ℕ) (s : RunState) :
    (runJob b opts i s).trace =
      s.trace ++ jobOps b (nameAt s.jobs i) (getOutputName (nameAt s.jobs i) opts.format) := by
  obtain ⟨wr, evs, er, rr, d1, d2⟩ := b
  cases wr <;> cases er <;> cases rr <;>
    simp [runJob, jobOps, List.append_assoc]

/-- The lemma `flatMap` over a mapped index list. -/
theorem flatMap_map_nat {α : Type} (l : List ℕ) (f : ℕ → ℕ) (g : ℕ → List α) :
    (l.map f).flatMap g = l.flatMap fun m => g (f m) := by
  induction l with
  | nil => rfl
  | cons x xs ih => simp [ih]

/-- Loop invariants of the per-job loop: the length is preserved, already
processed jobs (indices below the loop's start) keep their status and
error message, every file name stays, each job inside the window reaches
its behaviour's terminal state, and the trace grows by exactly the
per-job operations in index order. -/
theorem runLoop_spec (beh : ℕ → JobBehavior) (opts : Options) :
    ∀ (n i : ℕ) (s : RunState),
      (runLoop beh opts i n s).jobs.length = s.jobs.length ∧
      (∀ j, j < i → statusAt (runLoop beh opts i n s).jobs j = statusAt s.jobs j ∧
          errAt (runLoop beh opts i n s).jobs j = errAt s.jobs j) ∧
      (∀ j, nameAt (runLoop beh opts i n s).jobs j = nameAt s.jobs j) ∧
      (∀ k, i ≤ k → k < i + n → k < s.jobs.length →
          statusAt (runLoop beh opts i n s).jobs k = some (jobFinalStatus (beh k)) ∧
          (behaviorOkB (beh k) = false →
            errAt (runLoop beh opts i n s).jobs k = some (jobFinalErr (beh k)))) ∧
      (runLoop beh opts i n s).trace =
        s.trace ++ ((List.range n).flatMap fun m =>
          jobOps (beh (i + m)) (nameAt s.jobs (i + m))
            (getOutputName (nameAt s.jobs (i + m)) opts.format)) := by
  intro n
  induction n with
  | zero =>
    intro i s
    exact ⟨rfl, fun j _ => ⟨rfl, rfl⟩, fun j => rfl,
      fun k hk1 hk2 _ => absurd hk2 (by omega), by simp [runLoop]⟩
  | succ n ih =>
    intro i s
    have hstep : runLoop beh opts i (n + 1) s =
        runLoop beh opts (i + 1) n (runJob (beh i) opts i s) := rfl
    obtain ⟨ihlen, ihold, ihname, ihwin, ihtrace⟩ := ih (i + 1) (runJob (beh i) opts i s)
    rw [hstep]
    refine ⟨?_, ?_, ?_, ?_, ?_⟩
    · rw [ihlen, runJob_length]
    · intro j hj
      obtain ⟨h1, h2⟩ := ihold j (by omega)
      exact ⟨h1.trans (runJob_statusAt_ne _ _ _ _ _ (by omega)),
        h2.trans (runJob_errAt_ne _ _ _ _ _ (by omega))⟩
    · intro j
      exact (ihname j).trans (runJob_nameAt _ _ _ _ j)
    · intro k hk1 hk2 hk3
      by_cases hki : k = i
      · subst hki
        obtain ⟨h1, h2⟩ := ihold k (by omega)
        obtain ⟨h3, h4⟩ := runJob_self_spec (beh k) opts k s hk3
        exact ⟨h1.trans h3, fun hb => h2.trans (h4 hb)⟩
      · have hk3' : k < (runJob (beh i) opts i s).jobs.length := by
          rw [runJob_length]; exact hk3
        exact ihwin k (by omega) (by omega) hk3'
    · have hnames : ∀ x, nameAt (runJob (beh i) opts i s).jobs x = nameAt s.jobs x :=
        runJob_nameAt (beh i) opts i s
      have harith : ∀ m : ℕ, i + 1 + m = i + (m + 1) := fun m => by omega
      rw [ihtrace, runJob_trace, List.append_assoc, List.range_succ_eq_map]
      simp only [List.flatMap_cons, Nat.add_zero, flatMap_map_nat, hnames, harith,
        Nat.succ_eq_add_one]

/-- The recorded message is never empty: an empty thrown message falls
back to the stringified error object. -/
theorem errText_ne_empty (m : String) : errText m ≠ "" := by
  unfold errText
  split
  · decide
  · assumption

/-- A fully succeeding behaviour finishes Done. -/
theorem jobFinalStatus_ok (b : JobBehavior) (h : behaviorOkB b = true) :
    jobFinalStatus b = Status.done := by
  simp [jobFinalStatus, h]

/-- A failing behaviour finishes Error. -/
theorem jobFinalStatus_fail (b : JobBehavior) (h : behaviorOkB b = false) :
    jobFinalStatus b = Status.error := by
  simp [jobFinalStatus, h]

/-- A failing behaviour carries a failure message. -/
theorem jobFailMsg_of_fail (b : JobBehavior) (h : behaviorOkB b = false) :
    ∃ m, jobFailMsg b = some m := by
  obtain ⟨wr, evs, er, rr, d1, d2⟩ := b
  cases wr <;> cases er <;> cases rr <;> simp_all [behaviorOkB, jobFailMsg]

/-- C1: a run over any job list with the engine handle acquired completes
without propagating any per-job failure, keeps the job list length, ends
every job whose write/exec/read all succeed in Done, ends every job with
a failing step in Error carrying a non-empty message, and emits the
per-job engine operations in original job order. -/
theorem handleProcess_isolates_failures (jobs : List VideoJob) (opts : Options)
    (beh : ℕ → JobBehavior) :
    (handleProcess (Except.ok ()) beh jobs opts).rejected = none ∧
    (handleProcess (Except.ok ()) beh jobs opts).jobs.length = jobs.length ∧
    (∀ k, k < jobs.length → behaviorOkB (beh k) = true →
      statusAt (handleProcess (Except.ok ()) beh jobs opts).jobs k = some Status.done) ∧
    (∀ k, k < jobs.length → behaviorOkB (beh k) = false →
      statusAt (handleProcess (Except.ok ()) beh jobs opts).jobs k = some Status.error ∧
      ∃ m, errAt (handleProcess (Except.ok ()) beh jobs opts).jobs k = some (some m) ∧
        m ≠ "") ∧
    (handleProcess (Except.ok ()) beh jobs opts).trace = expectedTrace beh jobs opts := by
  by_cases hje : jobs.isEmpty
  · have hnil : jobs = [] := List.isEmpty_iff.mp hje
    subst hnil
    refine ⟨rfl, rfl, ?_, ?_, rfl⟩ <;> (intro k hk; simp at hk)
  · obtain ⟨hlen, hold, hname, hwin, htrace⟩ :=
      runLoop_spec beh opts jobs.length 0 ⟨jobs, [], [], 0⟩
    simp only [handleProcess, if_neg hje]
    refine ⟨by trivial, hlen, ?_, ?_, ?_⟩
    · intro k hk hok
      have h := (hwin k (by omega) (by omega) hk).1
      rw [h, jobFinalStatus_ok _ hok]
    · intro k hk hfail
      obtain ⟨h1, h2⟩ := hwin k (by omega) (by omega) hk
      obtain ⟨m, hm⟩ := jobFailMsg_of_fail _ hfail
      refine ⟨by rw [h1, jobFinalStatus_fail _ hfail], errText m, ?_, errText_ne_empty m⟩
      rw [h2 hfail]
      simp [jobFinalErr, hm]
    · rw [htrace]
      simp only [expectedTrace, List.nil_append, Nat.zero_add]

/-- Witness for C1: two jobs, the second failing at exec, run to the
expected terminal states. -/
theorem handleProcess_isolates_failures_witness :
    (handleProcess (Except.ok ())
        (fun k => if k = 0 then ⟨none, [], none, Except.ok [], false, false⟩
                  else ⟨none, [], some "broken input", Except.ok [], false, false⟩)
        [⟨"a.mov", "", 0, Status.pending, none, none⟩,
         ⟨"b.mov", "", 0, Status.pending, none, none⟩]
        (Options.mk Format.mp4 Resolution.source Bitrate.auto none none)).rejected = none ∧
    statusAt (handleProcess (Except.ok ())
        (fun k => if k = 0 then ⟨none, [], none, Except.ok [], false, false⟩
                  else ⟨none, [], some "broken input", Except.ok [], false, false⟩)
        [⟨"a.mov", "", 0, Status.pending, none, none⟩,
         ⟨"b.mov", "", 0, Status.pending, none, none⟩]
        (Options.mk Format.mp4 Resolution.source Bitrate.auto none none)).jobs 0 =
      some Status.done ∧
    statusAt (handleProcess (Except.ok ())
        (fun k => if k = 0 then ⟨none, [], none, Except.ok [], false, false⟩
                  else ⟨none, [], some "broken input", Except.ok [], false, false⟩)
        [⟨"a.mov", "", 0, Status.pending, none, none⟩,
         ⟨"b.mov", "", 0, Status.pending, none, none⟩]
        (Options.mk Format.mp4 Resolution.source Bitrate.auto none none)).jobs 1 =
      some Status.error ∧
    (∃ m, errAt (handleProcess (Except.ok ())
        (fun k => if k = 0 then ⟨none, [], none, Except.ok [], false, false⟩
                  else ⟨none, [], some "broken input", Except.ok [], false, false⟩)
        [⟨"a.mov", "", 0, Status.pending, none, none⟩,
         ⟨"b.mov", "", 0, Status.pending, none, none⟩]
        (Options.mk Format.mp4 Resolution.source Bitrate.auto none none)).jobs 1 =
      some (some m) ∧ m ≠ "") :=
  ⟨(handleProcess_isolates_failures _ _ _).1,
   (handleProcess_isolates_failures _ _ _).2.2.1 0 (by decide) (by decide),
   ((handleProcess_isolates_failures _ _ _).2.2.2.1 1 (by decide) (by decide)).1,
   ((handleProcess_isolates_failures _ _ _).2.2.2.1 1 (by decide) (by decide)).2⟩

/-- C2 (amended): the two virtual-filesystem deletions are attempted only
on the success path — after a successful read, first the input then the
output entry — and never on a failure path; the outcome of the deletions
themselves is ignored, so a deletion failure changes nothing, in
particular not the job's status. -/
theorem cleanup_success_path_only (b : JobBehavior) (opts : Options)
    (inN outN : String) (i : ℕ) (s : RunState) :
    (behaviorOkB b = true →
      jobOps b inN outN =
        [FsOp.write inN, FsOp.exec, FsOp.delete inN, FsOp.delete outN]) ∧
    (behaviorOkB b = false → ∀ nm, FsOp.delete nm ∉ jobOps b inN outN) ∧
    (∀ b1 b2 : Bool,
      runJob { b with deleteInputFails := b1, deleteOutputFails := b2 } opts i s =
        runJob b opts i s) ∧
    ((runJob b opts i s).trace =
      s.trace ++ jobOps b (nameAt s.jobs i) (getOutputName (nameAt s.jobs i) opts.format)) := by
  refine ⟨?_, ?_, ?_, runJob_trace b opts i s⟩
  · intro h
    obtain ⟨wr, evs, er, rr, d1, d2⟩ := b
    cases wr <;> cases er <;> cases rr <;> simp_all [behaviorOkB, jobOps]
  · intro h nm
    obtain ⟨wr, evs, er, rr, d1, d2⟩ := b
    cases wr <;> cases er <;> cases rr <;> simp_all [behaviorOkB, jobOps]
  · intro b1 b2
    obtain ⟨wr, evs, er, rr, d1, d2⟩ := b
    rfl

/-- C2 counterexample for the claim as stated: a job whose exec step fails
is attempted (it ends in Error), yet the run's trace contains no deletion
at all — the source's two `deleteFile` calls sit inside the `try` block
after the success path, so the failure path skips them. -/
theorem cleanup_counterexample :
    statusAt (handleProcess (Except.ok ())
        (fun _ => ⟨none, [], some "corrupt file", Except.ok [], false, false⟩)
        [⟨"a.mov", "", 0, Status.pending, none, none⟩]
        (Options.mk Format.mp4 Resolution.source Bitrate.auto none none)).jobs 0 =
      some Status.error ∧
    (handleProcess (Except.ok ())
        (fun _ => ⟨none, [], some "corrupt file", Except.ok [], false, false⟩)
        [⟨"a.mov", "", 0, Status.pending, none, none⟩]
        (Options.mk Format.mp4 Resolution.source Bitrate.auto none none)).trace =
      [FsOp.write "a.mov", FsOp.exec] ∧
    FsOp.delete "a.mov" ∉ (handleProcess (Except.ok ())
        (fun _ => ⟨none, [], some "corrupt file", Except.ok [], false, false⟩)
        [⟨"a.mov", "", 0, Status.pending, none, none⟩]
        (Options.mk Format.mp4 Resolution.source Bitrate.auto none none)).trace ∧
    FsOp.delete "a.mp4" ∉ (handleProcess (Except.ok ())
        (fun _ => ⟨none, [], some "corrupt file", Except.ok [], false, false⟩)
        [⟨"a.mov", "", 0, Status.pending, none, none⟩]
        (Options.mk Format.mp4 Resolution.source Bitrate.auto none none)).trace := by
  decide

/-- Witness for the amended C2 theorem: a fully succeeding behaviour
deletes input then output; a failing one deletes nothing. -/
theorem cleanup_success_path_only_witness :
    (jobOps ⟨none, [], none, Except.ok [], false, false⟩ "a.mov" "a.mp4" =
      [FsOp.write "a.mov", FsOp.exec, FsOp.delete "a.mov", FsOp.delete "a.mp4"]) ∧
    (FsOp.delete "a.mov" ∉
      jobOps ⟨none, [], some "boom", Except.ok [], false, false⟩ "a.mov" "a.mp4") ∧
    (runJob { (⟨none, [], none, Except.ok [], false, false⟩ : JobBehavior) with
        deleteInputFails := true, deleteOutputFails := true }
      (Options.mk Format.mp4 Resolution.source Bitrate.auto none none) 0
      ⟨[⟨"a.mov", "", 0, Status.pending, none, none⟩], [], [], 0⟩ =
     runJob ⟨none, [], none, Except.ok [], false, false⟩
      (Options.mk Format.mp4 Resolution.source Bitrate.auto none none) 0
      ⟨[⟨"a.mov", "", 0, Status.pending, none, none⟩], [], [], 0⟩) :=
  ⟨(cleanup_success_path_only ⟨none, [], none, Except.ok [], false, false⟩
      (Options.mk Format.mp4 Resolution.source Bitrate.auto none none) "a.mov" "a.mp4" 0
      ⟨[⟨"a.mov", "", 0, Status.pending, none, none⟩], [], [], 0⟩).1 (by decide),
   (cleanup_success_path_only ⟨none, [], some "boom", Except.ok [], false, false⟩
      (Options.mk Format.mp4 Resolution.source Bitrate.auto none none) "a.mov" "a.mp4" 0
      ⟨[⟨"a.mov", "", 0, Status.pending, none, none⟩], [], [], 0⟩).2.1 (by decide) "a.mov",
   (cleanup_success_path_only ⟨none, [], none, Except.ok [], false, false⟩
      (Options.mk Format.mp4 Resolution.source Bitrate.auto none none) "a.mov" "a.mp4" 0
      ⟨[⟨"a.mov", "", 0, Status.pending, none, none⟩], [], [], 0⟩).2.2.1 true true⟩

/-- C3: if engine-handle acquisition fails at the start of a (non-empty)
run, the whole run rejects with that error and the job list — statuses,
progress, messages and output references — is left exactly as it was,
with no engine operation attempted. -/
theorem handleProcess_init_failure (jobs : List VideoJob) (opts : Options)
    (beh : ℕ → JobBehavior) (e : String) (h : jobs ≠ []) :
    handleProcess (Except.error e) beh jobs opts =
      RunResult.mk (some e) jobs [] [] := by
  have hje : jobs.isEmpty = false := by
    cases jobs
    · exact absurd rfl h
    · rfl
  simp [handleProcess, hje]

/-- Witness for C3 with one pending job. -/
theorem handleProcess_init_failure_witness :
    ([⟨"a.mov", "", 0, Status.pending, none, none⟩] : List VideoJob) ≠ [] ∧
    handleProcess (Except.error "failed to fetch core")
        (fun _ => ⟨none, [], none, Except.ok [], false, false⟩)
        [⟨"a.mov", "", 0, Status.pending, none, none⟩]
        (Options.mk Format.mp4 Resolution.source Bitrate.auto none none) =
      RunResult.mk (some "failed to fetch core")
        [⟨"a.mov", "", 0, Status.pending, none, none⟩] [] [] :=
  ⟨by decide,
   handleProcess_init_failure
     [⟨"a.mov", "", 0, Status.pending, none, none⟩]
     (Options.mk Format.mp4 Resolution.source Bitrate.auto none none)
     (fun _ => ⟨none, [], none, Except.ok [], false, false⟩)
     "failed to fetch core" (by decide)⟩

/-- C5 (amended): once a job's index lies before the loop window its
status and error message never change again — later jobs cannot revisit a
terminal status; its progress, however, is not protected: the accumulated
progress handlers let a later job's progress events overwrite a Done
job's progress (see the counterexample). -/
theorem terminal_status_never_revisited (beh : ℕ → JobBehavior) (opts : Options)
    (n i : ℕ) (s : RunState) (j : ℕ) (hj : j < i) :
    statusAt (runLoop beh opts i n s).jobs j = statusAt s.jobs j ∧
    errAt (runLoop beh opts i n s).jobs j = errAt s.jobs j :=
  (runLoop_spec beh opts n i s).2.1 j hj

/-- The lemma `Rat.floor` agrees with the ordered-field floor. -/
theorem ratFloor_eq_intFloor (q : ℚ) : q.floor = ⌊q⌋ := by
  rw [Rat.floor_def', Rat.floor_def]

/-- The handler value of the half-way progress event is 50. -/
theorem progressUpdate_half : progressUpdate ((1 : ℚ) / 2) = 50 := by
  unfold progressUpdate
  have hjs : jsRound ((1 : ℚ) / 2 * 100) = 50 := by
    unfold jsRound
    rw [ratFloor_eq_intFloor]
    have h1 : (50 : ℤ) ≤ ⌊(1 : ℚ) / 2 * 100 + 1 / 2⌋ :=
      Int.le_floor.mpr (by push_cast; norm_num)
    have h2 : ⌊(1 : ℚ) / 2 * 100 + 1 / 2⌋ < 51 :=
      Int.floor_lt.mpr (by push_cast; norm_num)
    omega
  rw [hjs]
  norm_num

/-- C5 counterexample: after a run of two succeeding jobs in which the
second job delivers a progress event of 1/2, the first job is Done but
its progress has been overwritten from 100 down to 50 — the handler the
first job registered is still attached while the second job executes. -/
theorem done_progress_overwritten_counterexample :
    statusAt (handleProcess (Except.ok ())
        (fun k => if k = 0 then ⟨none, [], none, Except.ok [], false, false⟩
                  else ⟨none, [(1 : ℚ) / 2], none, Except.ok [], false, false⟩)
        [⟨"a.mov", "", 0, Status.pending, none, none⟩,
         ⟨"b.mov", "", 0, Status.pending, none, none⟩]
        (Options.mk Format.mp4 Resolution.source Bitrate.auto none none)).jobs 0 =
      some Status.done ∧
    progAt (handleProcess (Except.ok ())
        (fun k => if k = 0 then ⟨none, [], none, Except.ok [], false, false⟩
                  else ⟨none, [(1 : ℚ) / 2], none, Except.ok [], false, false⟩)
        [⟨"a.mov", "", 0, Status.pending, none, none⟩,
         ⟨"b.mov", "", 0, Status.pending, none, none⟩]
        (Options.mk Format.mp4 Resolution.source Bitrate.auto none none)).jobs 0 =
      some (progressUpdate ((1 : ℚ) / 2)) ∧
    progressUpdate ((1 : ℚ) / 2) = 50 ∧ (50 : ℤ) ≠ 100 := by
  refine ⟨rfl, rfl, progressUpdate_half, by decide⟩

/-- Witness for the amended C5 theorem: with the loop starting past
index 0, job 0 keeps its terminal status and message. -/
theorem terminal_status_never_revisited_witness :
    (0 : ℕ) < 1 ∧
    (statusAt (runLoop (fun _ => ⟨none, [], none, Except.ok [], false, false⟩)
        (Options.mk Format.mp4 Resolution.source Bitrate.auto none none) 1 1
        ⟨[⟨"a.mov", "a.mp4", 100, Status.done, none, some 0⟩,
          ⟨"b.mov", "", 0, Status.pending, none, none⟩], [0], [], 1⟩).jobs 0 =
      statusAt [⟨"a.mov", "a.mp4", 100, Status.done, none, some 0⟩,
          ⟨"b.mov", "", 0, Status.pending, none, none⟩] 0 ∧
     errAt (runLoop (fun _ => ⟨none, [], none, Except.ok [], false, false⟩)
        (Options.mk Format.mp4 Resolution.source Bitrate.auto none none) 1 1
        ⟨[⟨"a.mov", "a.mp4", 100, Status.done, none, some 0⟩,
          ⟨"b.mov", "", 0, Status.pending, none, none⟩], [0], [], 1⟩).jobs 0 =
      errAt [⟨"a.mov", "a.mp4", 100, Status.done, none, some 0⟩,
          ⟨"b.mov", "", 0, Status.pending, none, none⟩] 0) :=
  ⟨by decide,
   terminal_status_never_revisited
     (fun _ => ⟨none, [], none, Except.ok [], false, false⟩)
     (Options.mk Format.mp4 Resolution.source Bitrate.auto none none) 1 1
     ⟨[⟨"a.mov", "a.mp4", 100, Status.done, none, some 0⟩,
       ⟨"b.mov", "", 0, Status.pending, none, none⟩], [0], [], 1⟩ 0 (by decide)⟩

/-- C8: every progress event `r ≥ 0` delivered to an attached handler sets
that job's recorded progress to round(r·100) clamped into [0, 100]
(values above 1.0 clamp to 100; the code's `Math.min(100, Math.round(r *
100))` coincides with the full clamp for the engine's non-negative
ratios). -/
theorem progress_clamped (a : List ℕ) (r : ℚ) (js : List VideoJob) (j : ℕ)
    (hj : j ∈ a) (hlen : j < js.length) (hr : 0 ≤ r) :
    progAt (applyHandlers a r js) j = some (max 0 (min 100 (jsRound (r * 100)))) := by
  rw [progAt_applyHandlers_mem a r js j hj hlen]
  have h0 : (0 : ℤ) ≤ jsRound (r * 100) := by
    have hq : ((0 : ℤ) : ℚ) ≤ r * 100 + 1 / 2 := by push_cast; nlinarith
    exact Rat.le_floor.mpr hq
  congr 1
  unfold progressUpdate
  rw [max_eq_right (le_min (by norm_num) h0)]

/-- Witness for C8 at the event 3/2 (above 1.0, clamping to 100). -/
theorem progress_clamped_witness :
    (0 : ℕ) ∈ [0] ∧ (0 : ℕ) < 1 ∧ (0 : ℚ) ≤ 3 / 2 ∧
    progAt (applyHandlers [0] (3 / 2)
        [⟨"a.mov", "", 0, Status.processing, none, none⟩]) 0 =
      some (max 0 (min 100 (jsRound ((3 : ℚ) / 2 * 100)))) :=
  ⟨by decide, by decide, by norm_num,
   progress_clamped [0] (3 / 2) [⟨"a.mov", "", 0, Status.processing, none, none⟩] 0
     (by decide) (by decide) (by norm_num)⟩

/-- The lemma `getFFmpeg` with a memoized singleton returns it at once. -/
theorem getFFmpeg_sing (cb : Option ℕ) (s : FFState) (h : ℕ)
    (hsing : s.ffmpegSingleton = some h) : getFFmpeg cb s = (s, AcqRes.handle h) := by
  unfold getFFmpeg
  rw [hsing]

/-- The lemma `getFFmpeg` with a load in flight returns the memoized promise. -/
theorem getFFmpeg_load (cb : Option ℕ) (s : FFState) (p : ℕ)
    (hsing : s.ffmpegSingleton = none) (hload : s.loadingPromise = some p) :
    getFFmpeg cb s = (s, AcqRes.promise p) := by
  unfold getFFmpeg
  rw [hsing, hload]

/-- The lemma `getFFmpeg` on a fresh state runs `load()`: it registers the caller's
callback and memoizes the new promise. -/
theorem getFFmpeg_fresh (cb : Option ℕ) (s : FFState)
    (hsing : s.ffmpegSingleton = none) (hload : s.loadingPromise = none) :
    getFFmpeg cb s =
      ({ s with loadingPromise := some s.initCount,
                callbacks := s.callbacks ++ cb.toList,
                initCount := s.initCount + 1 }, AcqRes.promise s.initCount) := by
  unfold getFFmpeg
  rw [hsing, hload]

/-- Settling with no load in flight changes nothing. -/
theorem settleLoad_none (outcomes : ℕ → Except String ℕ) (s : FFState)
    (hl : s.loadingPromise = none) : settleLoad outcomes s = s := by
  unfold settleLoad
  rw [hl]

/-- Settling an already settled load changes nothing. -/
theorem settleLoad_settled (outcomes : ℕ → Except String ℕ) (s : FFState) (p : ℕ)
    (hl : s.loadingPromise = some p) (hsd : s.settled = true) :
    settleLoad outcomes s = s := by
  unfold settleLoad
  rw [hl, hsd]
  simp

/-- A successful settle memoizes the singleton. -/
theorem settleLoad_ok (outcomes : ℕ → Except String ℕ) (s : FFState) (p h : ℕ)
    (hl : s.loadingPromise = some p) (hsd : s.settled = false)
    (ho : outcomes p = Except.ok h) :
    settleLoad outcomes s = { s with ffmpegSingleton := some h, settled := true } := by
  unfold settleLoad
  rw [hl]
  simp [hsd, ho]

/-- A failed settle resets nothing: the rejected promise stays memoized. -/
theorem settleLoad_err (outcomes : ℕ → Except String ℕ) (s : FFState) (p : ℕ) (e : String)
    (hl : s.loadingPromise = some p) (hsd : s.settled = false)
    (ho : outcomes p = Except.error e) :
    settleLoad outcomes s = { s with settled := true } := by
  unfold settleLoad
  rw [hl]
  simp [hsd, ho]

/-- One `getFFmpeg` call preserves the invariant and yields a legal
result. -/
theorem getFFmpeg_step (outcomes : ℕ → Except String ℕ) (cb : Option ℕ) (s : FFState)
    (hs : ffInv outcomes s) :
    ffInv outcomes (getFFmpeg cb s).1 ∧ ffResOK outcomes (getFFmpeg cb s).2 := by
  obtain ⟨h1, h2, h3, h4⟩ := hs
  cases hsing : s.ffmpegSingleton with
  | some h =>
      rw [getFFmpeg_sing cb s h hsing]
      exact ⟨⟨h1, h2, h3, h4⟩, (h4 h hsing).1⟩
  | none =>
      cases hload : s.loadingPromise with
      | some p =>
          rw [getFFmpeg_load cb s p hsing hload]
          exact ⟨⟨h1, h2, h3, h4⟩, (h3 p hload).1⟩
      | none =>
          obtain ⟨hc0, -⟩ := h2 hload
          rw [getFFmpeg_fresh cb s hsing hload]
          refine ⟨⟨by simp; omega, ?_, ?_, ?_⟩, ?_⟩
          · intro hq; simp at hq
          · intro p hp
            simp only [Option.some.injEq] at hp
            constructor <;> [skip; simp] <;> omega
          · intro q hq
            simp only [hsing] at hq
            cases hq
          · simp [ffResOK, hc0]

/-- Settling the load preserves the invariant. -/
theorem settleLoad_step (outcomes : ℕ → Except String ℕ) (s : FFState)
    (hs : ffInv outcomes s) : ffInv outcomes (settleLoad outcomes s) := by
  obtain ⟨h1, h2, h3, h4⟩ := hs
  cases hl : s.loadingPromise with
  | none => rw [settleLoad_none outcomes s hl]; exact ⟨h1, h2, h3, h4⟩
  | some p =>
      obtain ⟨hp0, hc1⟩ := h3 p hl
      subst hp0
      cases hsd : s.settled with
      | true => rw [settleLoad_settled outcomes s 0 hl hsd]; exact ⟨h1, h2, h3, h4⟩
      | false =>
          cases ho : outcomes 0 with
          | ok hh =>
              rw [settleLoad_ok outcomes s 0 hh hl hsd ho]
              refine ⟨h1, ?_, ?_, ?_⟩
              · intro hq
                simp only at hq
                rw [hl] at hq
                cases hq
              · intro q hq
                simp only at hq
                exact h3 q hq
              · intro q hq
                simp only [Option.some.injEq] at hq
                subst hq
                exact ⟨ho, by simp [hl]⟩
          | error e =>
              rw [settleLoad_err outcomes s 0 e hl hsd ho]
              exact ⟨h1, fun hq => h2 hq, fun q hq => h3 q hq, fun q hq => h4 q hq⟩

/-- The lemma `settleLoad` never changes the initialization count. -/
theorem settleLoad_initCount (outcomes : ℕ → Except String ℕ) (s : FFState) :
    (settleLoad outcomes s).initCount = s.initCount := by
  cases hl : s.loadingPromise with
  | none => rw [settleLoad_none outcomes s hl]
  | some p =>
      cases hsd : s.settled with
      | true => rw [settleLoad_settled outcomes s p hl hsd]
      | false =>
          cases ho : outcomes p with
          | ok hh => rw [settleLoad_ok outcomes s p hh hl hsd ho]
          | error e => rw [settleLoad_err outcomes s p e hl hsd ho]

/-- The lemma `settleLoad` never changes the registered callbacks. -/
theorem settleLoad_callbacks (outcomes : ℕ → Except String ℕ) (s : FFState) :
    (settleLoad outcomes s).callbacks = s.callbacks := by
  cases hl : s.loadingPromise with
  | none => rw [settleLoad_none outcomes s hl]
  | some p =>
      cases hsd : s.settled with
      | true => rw [settleLoad_settled outcomes s p hl hsd]
      | false =>
          cases ho : outcomes p with
          | ok hh => rw [settleLoad_ok outcomes s p hh hl hsd ho]
          | error e => rw [settleLoad_err outcomes s p e hl hsd ho]

/-- The lemma `settleLoad` never clears the memoized promise. -/
theorem settleLoad_keeps_memo (outcomes : ℕ → Except String ℕ) (s : FFState)
    (hs : s.loadingPromise ≠ none ∨ s.ffmpegSingleton ≠ none) :
    (settleLoad outcomes s).loadingPromise ≠ none ∨
      (settleLoad outcomes s).ffmpegSingleton ≠ none := by
  cases hl : s.loadingPromise with
  | none => rw [settleLoad_none outcomes s hl]; simpa [hl] using hs
  | some p =>
      cases hsd : s.settled with
      | true => rw [settleLoad_settled outcomes s p hl hsd]; simp [hl]
      | false =>
          cases ho : outcomes p with
          | ok hh => rw [settleLoad_ok outcomes s p hh hl hsd ho]; left; simp [hl]
          | error e => rw [settleLoad_err outcomes s p e hl hsd ho]; left; simp [hl]

/-- Running any event sequence preserves the invariant, keeps the
initialization count at `min 1` of the acquires seen, and hands every
caller a legal result. -/
theorem runFF_spec (outcomes : ℕ → Except String ℕ) :
    ∀ (evts : List FFEvent) (s : FFState), ffInv outcomes s →
      ffInv outcomes (runFF outcomes evts s).1 ∧
      (runFF outcomes evts s).1.initCount = min 1 (s.initCount + countAcquires evts) ∧
      (∀ r ∈ (runFF outcomes evts s).2, ffResOK outcomes r) := by
  intro evts
  induction evts with
  | nil =>
      intro s hs
      refine ⟨hs, ?_, by intro r hr; cases hr⟩
      have h1 := hs.1
      simp only [runFF, countAcquires, Nat.add_zero]
      rw [Nat.min_eq_right h1]
  | cons e es ih =>
      intro s hs
      cases e with
      | acquire cb =>
          obtain ⟨hinv, hres⟩ := getFFmpeg_step outcomes cb s hs
          obtain ⟨ih1, ih2, ih3⟩ := ih (getFFmpeg cb s).1 hinv
          obtain ⟨h1, h2, h3, h4⟩ := hs
          refine ⟨ih1, ?_, ?_⟩
          · rw [show (runFF outcomes (FFEvent.acquire cb :: es) s).1 =
                (runFF outcomes es (getFFmpeg cb s).1).1 from rfl, ih2]
            have hcnt : (getFFmpeg cb s).1.initCount = min 1 (s.initCount + 1) := by
              rw [Nat.min_eq_left (by omega)]
              cases hsing : s.ffmpegSingleton with
              | some h =>
                  rw [getFFmpeg_sing cb s h hsing]
                  exact (h3 0 (h4 h hsing).2).2
              | none =>
                  cases hload : s.loadingPromise with
                  | some p =>
                      rw [getFFmpeg_load cb s p hsing hload]
                      exact (h3 p hload).2
                  | none =>
                      obtain ⟨hc0, -⟩ := h2 hload
                      rw [getFFmpeg_fresh cb s hsing hload]
                      simp [hc0]
            have e1 : min 1 (s.initCount + 1) = 1 := Nat.min_eq_left (by omega)
            have e2 : min 1 (1 + countAcquires es) = 1 := Nat.min_eq_left (by omega)
            have e3 : min 1 (s.initCount + (countAcquires es + 1)) = 1 :=
              Nat.min_eq_left (by omega)
            rw [show countAcquires (FFEvent.acquire cb :: es) = countAcquires es + 1
                from rfl, hcnt, e1, e2, e3]
          · intro r hr
            rcases List.mem_cons.mp
              (show r ∈ (getFFmpeg cb s).2 ::
                  (runFF outcomes es (getFFmpeg cb s).1).2 from hr) with h | h
            · exact h ▸ hres
            · exact ih3 r h
      | settle =>
          have hinv := settleLoad_step outcomes s hs
          obtain ⟨ih1, ih2, ih3⟩ := ih (settleLoad outcomes s) hinv
          refine ⟨ih1, ?_, ih3⟩
          rw [show (runFF outcomes (FFEvent.settle :: es) s).1 =
              (runFF outcomes es (settleLoad outcomes s)).1 from rfl, ih2,
            settleLoad_initCount, countAcquires]

/-- The fresh module state satisfies the invariant. -/
theorem ffInv_init (outcomes : ℕ → Except String ℕ) : ffInv outcomes ffInit := by
  refine ⟨by decide, fun _ => ⟨rfl, rfl⟩, ?_, ?_⟩
  · intro p hp; cases hp
  · intro h hh; cases hh

/-- C4: over every event sequence from the fresh module state, at most
one engine initialization ever starts — exactly one as soon as any
acquire occurred; every caller handed a promise is handed the single
promise number 0 (the same in-flight outcome); every caller handed a
handle is handed the handle the single initialization succeeded with;
and when the single initialization fails, every caller — also after
completion — receives that same failed promise and no retry ever
starts. -/
theorem getFFmpeg_memoized (outcomes : ℕ → Except String ℕ) (evts : List FFEvent) :
    (runFF outcomes evts ffInit).1.initCount = min 1 (countAcquires evts) ∧
    (∀ r ∈ (runFF outcomes evts ffInit).2, ∀ p, r = AcqRes.promise p → p = 0) ∧
    (∀ r ∈ (runFF outcomes evts ffInit).2, ∀ h, r = AcqRes.handle h →
      outcomes 0 = Except.ok h) ∧
    (∀ e, outcomes 0 = Except.error e →
      ∀ r ∈ (runFF outcomes evts ffInit).2, r = AcqRes.promise 0) := by
  obtain ⟨hinv, hcnt, hres⟩ := runFF_spec outcomes evts ffInit (ffInv_init outcomes)
  refine ⟨by simpa [ffInit] using hcnt, ?_, ?_, ?_⟩
  · rintro r hr p rfl
    exact hres _ hr
  · rintro r hr h rfl
    exact hres _ hr
  · rintro e he r hr
    cases r with
    | promise p =>
        have := hres _ hr
        simp only [ffResOK] at this
        rw [this]
    | handle h =>
        have := hres _ hr
        simp only [ffResOK, he] at this
        exact absurd this (by simp)

/-- Witness for C4: one successful initialization shared by two callers. -/
theorem getFFmpeg_memoized_witness :
    (runFF (fun _ => Except.ok 7)
        [FFEvent.acquire (some 5), FFEvent.settle, FFEvent.acquire none]
        ffInit).1.initCount =
      min 1 (countAcquires
        [FFEvent.acquire (some 5), FFEvent.settle, FFEvent.acquire none]) ∧
    AcqRes.handle 7 ∈ (runFF (fun _ => Except.ok 7)
        [FFEvent.acquire (some 5), FFEvent.settle, FFEvent.acquire none]
        ffInit).2 ∧
    (fun _ => Except.ok 7 : ℕ → Except String ℕ) 0 = Except.ok 7 :=
  ⟨(getFFmpeg_memoized (fun _ => Except.ok 7)
      [FFEvent.acquire (some 5), FFEvent.settle, FFEvent.acquire none]).1,
   by decide,
   (getFFmpeg_memoized (fun _ => Except.ok 7)
      [FFEvent.acquire (some 5), FFEvent.settle, FFEvent.acquire none]).2.2.1
     (AcqRes.handle 7) (by decide) 7 rfl⟩

/-- Once something is memoized, no later event registers a callback. -/
theorem runFF_callbacks_stable (outcomes : ℕ → Except String ℕ) :
    ∀ (evts : List FFEvent) (s : FFState),
      (s.loadingPromise ≠ none ∨ s.ffmpegSingleton ≠ none) →
      (runFF outcomes evts s).1.callbacks = s.callbacks := by
  intro evts
  induction evts with
  | nil => intro s _; rfl
  | cons e es ih =>
      intro s hs
      cases e with
      | acquire cb =>
          have hstate : (getFFmpeg cb s).1 = s := by
            cases hsing : s.ffmpegSingleton with
            | some h => rw [getFFmpeg_sing cb s h hsing]
            | none =>
                cases hload : s.loadingPromise with
                | some p => rw [getFFmpeg_load cb s p hsing hload]
                | none =>
                    rcases hs with h | h
                    · exact absurd hload h
                    · exact absurd hsing h
          rw [show (runFF outcomes (FFEvent.acquire cb :: es) s).1 =
              (runFF outcomes es (getFFmpeg cb s).1).1 from rfl, hstate]
          exact ih s hs
      | settle =>
          rw [show (runFF outcomes (FFEvent.settle :: es) s).1 =
              (runFF outcomes es (settleLoad outcomes s)).1 from rfl]
          rw [ih (settleLoad outcomes s) (settleLoad_keeps_memo outcomes s hs),
            settleLoad_callbacks]

/-- C10: over every event sequence from the fresh module state, the only
progress callback ever registered on the engine is the one the very
first `getFFmpeg` call passed (none if it passed none); every later call
is answered from the memoized promise or handle and its callback
argument is silently dropped. -/
theorem getFFmpeg_first_callback_only (outcomes : ℕ → Except String ℕ)
    (evts : List FFEvent) :
    (runFF outcomes evts ffInit).1.callbacks = firstAcquireCb evts := by
  induction evts with
  | nil => rfl
  | cons e es ih =>
      cases e with
      | acquire cb =>
          have hfresh := getFFmpeg_fresh cb ffInit rfl rfl
          have hne : (getFFmpeg cb ffInit).1.loadingPromise ≠ none ∨
              (getFFmpeg cb ffInit).1.ffmpegSingleton ≠ none := by
            rw [hfresh]
            left
            simp
          rw [show (runFF outcomes (FFEvent.acquire cb :: es) ffInit).1 =
              (runFF outcomes es (getFFmpeg cb ffInit).1).1 from rfl,
            runFF_callbacks_stable outcomes es _ hne, hfresh]
          simp [ffInit, firstAcquireCb]
      | settle =>
          rw [show (runFF outcomes (FFEvent.settle :: es) ffInit).1 =
              (runFF outcomes es (settleLoad outcomes ffInit)).1 from rfl,
            show settleLoad outcomes ffInit = ffInit from rfl]
          exact ih


/-- C9 counterexample for the claim as stated: invoking the archive
exporter itself on an empty artifact list still creates an (empty)
archive and triggers a client-side download of it. -/
theorem zip_empty_counterexample :
    ExportAction.createArchive [] ∈ zipBlobsAsZipFile [] "processed-videos.zip" ∧
    ExportAction.download "processed-videos.zip" ∈
      zipBlobsAsZipFile [] "processed-videos.zip" := by
  decide

/-- C9 (amended): the empty-case no-op lives in the caller: when no job is
Done with an output URL, `handleZip` performs no action at all and raises
no error — `zipBlobsAsZipFile` is never invoked; `zipBlobsAsZipFile`
itself, on an empty list, still creates and downloads an empty archive. -/
theorem handleZip_empty_noop (fetchBlob : ℕ → List ℕ) (jobs : List VideoJob)
    (h : ∀ j ∈ jobs, ¬(j.status = Status.done ∧ j.downloadUrl.isSome = true)) :
    handleZip fetchBlob jobs = [] := by
  have hfil : jobs.filter
      (fun j => (j.status == Status.done) && j.downloadUrl.isSome) = [] := by
    rw [List.filter_eq_nil_iff]
    intro j hj
    simp only [Bool.and_eq_true, beq_iff_eq]
    exact fun hc => h j hj ⟨hc.1, hc.2⟩
  simp [handleZip, hfil]

/-- Witness for the amended C9 theorem: one pending job, no export
action. -/
theorem handleZip_empty_noop_witness :
    (∀ j ∈ ([⟨"a.mov", "", 0, Status.pending, none, none⟩] : List VideoJob),
      ¬(j.status = Status.done ∧ j.downloadUrl.isSome = true)) ∧
    handleZip (fun _ => []) [⟨"a.mov", "", 0, Status.pending, none, none⟩] = [] :=
  ⟨by decide,
   handleZip_empty_noop (fun _ => [])
     [⟨"a.mov", "", 0, Status.pending, none, none⟩] (by decide)⟩

end Bvp
